import Mathlib

/-!
Shallow embedding of PyWENO `src/nfweno.c`, the non-uniform WENO
coefficient precomputation.  C doubles are modelled by `ℚ` (the spec
treats all polynomial arithmetic as exact), C `int` indices by `ℤ`.
The polynomial value type lives in `poly.c`, which is not part of the
sources available here; its operations are modelled from the spec,
section 4.1.  The three macros and the four routines of `nfweno.c` are
translated directly from the C.
-/

/-- Polynomial in monomial basis with a fixed degree budget `n`:
coefficient of `x^z` is `p z` for `z ≤ n`; slots above `n` are not part
of the value.  Mirrors the `poly` struct of `poly.c`. -/
structure CPoly where
  n : ℕ
  p : ℕ → ℚ

/-- Modelled from the spec: `zero(n)`, the additive identity polynomial of
working degree `n` (`poly_zero` of `poly.c`, absent from src/). -/
def poly_zero (d : ℕ) : CPoly := ⟨d, fun _ => 0⟩

/-- Modelled from the spec: `one(n)`, the multiplicative identity polynomial
of working degree `n` (`poly_one` of `poly.c`, absent from src/). -/
def poly_one (d : ℕ) : CPoly := ⟨d, fun z => if z = 0 then 1 else 0⟩

/-- Macro `inplace_poly_mult_xpa` (nfweno.c lines 35-38): replace `p(x)` by
`(x + a) p(x)` in place, dropping the coefficient that would land at degree
`n + 1`.  The C loop runs `z` from `n` down to `1` doing
`p[z] = p[z-1] + a*p[z]`, then `p[0] = a*p[0]`; since each slot reads only
the pre-update values, the net effect is the functional update below. -/
def inplace_poly_mult_xpa (p1 : CPoly) (a : ℚ) : CPoly :=
  ⟨p1.n, fun z =>
    if z = 0 then a * p1.p 0
    else if z ≤ p1.n then p1.p (z - 1) + a * p1.p z
    else p1.p z⟩

/-- Macro `inplace_poly_add` (nfweno.c lines 43-44): `p1 <- p1 + p2` on the
slots `0..p1.n`. -/
def inplace_poly_add (p1 p2 : CPoly) : CPoly :=
  ⟨p1.n, fun z => if z ≤ p1.n then p1.p z + p2.p z else p1.p z⟩

/-- Macro `inplace_poly_scale` (nfweno.c lines 49-50): `p1 <- a * p1` on the
slots `0..p1.n`. -/
def inplace_poly_scale (p1 : CPoly) (a : ℚ) : CPoly :=
  ⟨p1.n, fun z => if z ≤ p1.n then p1.p z * a else p1.p z⟩

/-- Modelled from the spec: one symbolic differentiation step, degree reduced
by one and clamped at 0 (identically zero once the degree is exhausted). -/
def poly_diff1 (q : CPoly) : CPoly :=
  ⟨q.n - 1, fun z => if z + 1 ≤ q.n then ((z + 1 : ℕ) : ℚ) * q.p (z + 1) else 0⟩

/-- Modelled from the spec: `differentiate(p, order)` as repeated symbolic
differentiation (`poly_diff` of `poly.c`, absent from src/). -/
def poly_diff (q : CPoly) (order : ℕ) : CPoly := poly_diff1^[order] q

/-- Modelled from the spec: `multiply(p, q)`, the full polynomial product of
degree `deg p + deg q` (`poly_mult` of `poly.c`, absent from src/). -/
def poly_mult (q1 q2 : CPoly) : CPoly :=
  ⟨q1.n + q2.n, fun z =>
    ∑ a ∈ Finset.range (z + 1),
      if a ≤ q1.n ∧ z - a ≤ q2.n then q1.p a * q2.p (z - a) else 0⟩

/-- Modelled from the spec: `definite-integral(p, a, b)`, the closed-form
antiderivative evaluated at the bounds (`poly_int` of `poly.c`). -/
def poly_int (q : CPoly) (a b : ℚ) : ℚ :=
  ∑ z ∈ Finset.range (q.n + 1), q.p z * (b ^ (z + 1) - a ^ (z + 1)) / ((z + 1 : ℕ) : ℚ)

/-- Modelled from the spec: `evaluate(p, x)` (`poly_eval` of `poly.c`). -/
def poly_eval (q : CPoly) (x : ℚ) : ℚ :=
  ∑ z ∈ Finset.range (q.n + 1), q.p z * x ^ z

/-- The `weno` working structure of `nfweno.h`/`nfweno.c`: order `k`, grid
size `nx`, cell count `nc = nx - 1`, evaluation-point count `nxi`, the grid
and evaluation-point arrays, the internal polynomial map `c_irj_x`, the two
strided output buffers and their per-axis strides (already divided by
`sizeof(double)` as in lines 212-220). -/
structure weno where
  k : ℤ
  nx : ℤ
  nc : ℤ
  nxi : ℤ
  x : ℤ → ℚ
  xi : ℤ → ℚ
  c_irj_x : ℤ → CPoly
  c_ilrj : ℤ → ℚ
  beta : ℤ → ℚ
  csi : ℤ
  csl : ℤ
  csr : ℤ
  csj : ℤ
  bsi : ℤ
  bsr : ℤ
  bsm : ℤ
  bsn : ℤ

/-- The list `a, a+1, ..., b-1` of a C loop `for (t = a; t < b; t++)`;
empty when `b ≤ a`. -/
def intRange (a b : ℤ) : List ℤ := (List.range (b - a).toNat).map (fun (t : ℕ) => a + (t : ℤ))

/-- Grid index `i - il + j` (with `il = k - 1`) read on line 71. -/
def xlocalGridIndex (w : weno) (i j : ℤ) : ℤ := i - (w.k - 1) + j

/-- Line 71: `xlocal[j] = x[i-il+j] - x[i]`, the local coordinate window
centered at the left edge of cell `i`. -/
def xlocal (w : weno) (i j : ℤ) : ℚ := w.x (xlocalGridIndex w i j) - w.x i

/-- Window index `il - r + n` (with `il = k - 1`) used on lines 85 and 92. -/
def nodeWindowIndex (w : weno) (r n : ℤ) : ℤ := (w.k - 1) - r + n

/-- Stencil node `n` for shift `r`: the local coordinate `xlocal[il-r+n]`. -/
def nodeVal (w : weno) (i r n : ℤ) : ℚ := xlocal w i (nodeWindowIndex w r n)

/-- Lines 82-86: `prd_n`, the product over `n ∈ [0,k]` with `n = l` and
`n = m` skipped of the binomials `(x - xlocal[il-r+n])`, accumulated by
`inplace_poly_mult_xpa` into `poly_one(k-1)`. -/
def prdN (w : weno) (i r l m : ℤ) : CPoly :=
  (intRange 0 (w.k + 1)).foldl
    (fun q nn => if nn = l ∨ nn = m then q
                 else inplace_poly_mult_xpa q (-(nodeVal w i r nn)))
    (poly_one (w.k - 1).toNat)

/-- Lines 79-88: `sum_m`, the sum over `m ∈ [0,k]`, `m ≠ l`, of `prd_n`. -/
def sumM (w : weno) (i r l : ℤ) : CPoly :=
  (intRange 0 (w.k + 1)).foldl
    (fun s m => if m = l then s else inplace_poly_add s (prdN w i r l m))
    (poly_zero (w.k - 1).toNat)

/-- Lines 89-93: the Lagrange denominator
`a = prod over m ∈ [0,k], m ≠ l, of (xlocal[il-r+l] - xlocal[il-r+m])`. -/
def lagDenom (w : weno) (i r l : ℤ) : ℚ :=
  (intRange 0 (w.k + 1)).foldl
    (fun a m => if m = l then a else a * (nodeVal w i r l - nodeVal w i r m)) 1

/-- Lines 77-97: the reconstruction polynomial written to `c_irj_x[irj]`:
start from `poly_zero(k-1)` and, for `l` from `j+1` to `k`, add
`sum_m` scaled by `1/a`. -/
def reconPoly (w : weno) (i r j : ℤ) : CPoly :=
  (intRange (j + 1) (w.k + 1)).foldl
    (fun acc l =>
      inplace_poly_add acc (inplace_poly_scale (sumM w i r l) (lagDenom w i r l)⁻¹))
    (poly_zero (w.k - 1).toNat)

/-- Flat index `irj = i*k*k + r*k + j` (lines 75, 120, 139, 141). -/
def irjIndex (w : weno) (i r j : ℤ) : ℤ := i * w.k * w.k + r * w.k + j

/-- The `(i, r, j)` triples visited by the loops of `weno_recon_polys`
(lines 64, 73, 74), in loop order. -/
def reconTriples (w : weno) : List (ℤ × ℤ × ℤ) :=
  (intRange (w.k - 1) (w.nc - (w.k - 1))).flatMap fun i =>
    (intRange 0 w.k).flatMap fun r =>
      (intRange 0 w.k).map fun j => (i, r, j)

/-- `weno_recon_polys` (nfweno.c lines 57-104): store `reconPoly` at each
visited flat index `irj`. -/
def weno_recon_polys (w : weno) : weno :=
  { w with c_irj_x :=
      ((reconTriples w).foldl
        (fun f t => Function.update f (irjIndex w t.1 t.2.1 t.2.2)
          (reconPoly w t.1 t.2.1 t.2.2))
        w.c_irj_x) }

/-- Line 118: physical evaluation offset `xi = 0.5*(1 + xi[n])*(x[i+1]-x[i])`. -/
def xiPhys (w : weno) (i n : ℤ) : ℚ := 1/2 * (1 + w.xi n) * (w.x (i + 1) - w.x i)

/-- Strided address `ilrj = csi*i + csl*n + csr*r + csj*j` (line 119). -/
def cIndex (w : weno) (i n r j : ℤ) : ℤ := w.csi * i + w.csl * n + w.csr * r + w.csj * j

/-- The `(i, r, j, n)` quadruples visited by the loops of
`weno_recon_coefs` (lines 114-117), in loop order. -/
def coefQuads (w : weno) : List (ℤ × ℤ × ℤ × ℤ) :=
  (intRange (w.k - 1) (w.nc - (w.k - 1))).flatMap fun i =>
    (intRange 0 w.k).flatMap fun r =>
      (intRange 0 w.k).flatMap fun j =>
        (intRange 0 w.nxi).map fun n => (i, r, j, n)

/-- `weno_recon_coefs` (nfweno.c lines 110-125): evaluate each stored
reconstruction polynomial at the physical offset of every evaluation point
and write it through the strided address. -/
def weno_recon_coefs (w : weno) : weno :=
  { w with c_ilrj :=
      ((coefQuads w).foldl
        (fun f t => Function.update f (cIndex w t.1 t.2.2.2 t.2.1 t.2.2.1)
          (poly_eval (w.c_irj_x (irjIndex w t.1 t.2.1 t.2.2.1)) (xiPhys w t.1 t.2.2.2)))
        w.c_ilrj) }

/-- Strided address `bsi*i + bsr*r + bsm*m + bsn*n` (line 154). -/
def bIndex (w : weno) (i r m n : ℤ) : ℤ := w.bsi * i + w.bsr * r + w.bsm * m + w.bsn * n

/-- The `(i, r, m, n)` quadruples visited by the loops of
`weno_smoothness_coefs` (lines 135-140, with `n` starting at `m`). -/
def smoothQuads (w : weno) : List (ℤ × ℤ × ℤ × ℤ) :=
  (intRange (w.k - 1) (w.nc - (w.k - 1))).flatMap fun i =>
    (intRange 0 w.k).flatMap fun r =>
      (intRange 0 w.k).flatMap fun m =>
        (intRange m w.k).map fun n => (i, r, m, n)

/-- Lines 143-152: the scalar accumulated into `beta` for one `(i,r,m,n)`:
starting from the two stored polynomials, for `d` from 1 to `k-1`
differentiate both once more in place and add
`multi * dx^(2d-1) * poly_int(poly_mult(pm, pn), 0, dx)`.  The C local
variables `dx = x[i+1]-x[i]` and `multi = (m==n ? 1 : 2)` are inlined. -/
def smoothVal (w : weno) (i r m n : ℤ) : ℚ :=
  ((intRange 1 w.k).foldl
    (fun (st : CPoly × CPoly × ℚ) d =>
      (poly_diff st.1 1, poly_diff st.2.1 1,
        st.2.2 + (if m = n then (1 : ℚ) else 2) * (w.x (i + 1) - w.x i) ^ (2 * d - 1).toNat *
          poly_int (poly_mult (poly_diff st.1 1) (poly_diff st.2.1 1)) 0
            (w.x (i + 1) - w.x i)))
    (w.c_irj_x (irjIndex w i r m), w.c_irj_x (irjIndex w i r n), 0)).2.2

/-- `weno_smoothness_coefs` (nfweno.c lines 131-161). -/
def weno_smoothness_coefs (w : weno) : weno :=
  { w with beta :=
      ((smoothQuads w).foldl
        (fun f t => Function.update f (bIndex w t.1 t.2.1 t.2.2.1 t.2.2.2)
          (smoothVal w t.1 t.2.1 t.2.2.1 t.2.2.2))
        w.beta) }

/-- Lines 222-224: the three passes in order. -/
def wenoPipeline (w : weno) : weno :=
  weno_smoothness_coefs (weno_recon_coefs (weno_recon_polys w))

/-- Model of a numpy `PyArrayObject` as seen through the fields the wrapper
reads: dimensionality, element-type tag, extents, per-axis strides (in
elements) and the flat data buffer. -/
structure NDArray where
  nd : ℕ
  typ : ℕ
  dims : ℕ → ℤ
  strides : ℕ → ℤ
  data : ℤ → ℚ

/-- The numpy `NPY_DOUBLE` type tag. -/
def PyArray_DOUBLE : ℕ := 12

/-- The `weno` record assembled by the wrapper (nfweno.c lines 201-220):
`nx = PyArray_DIM(x,0)`, `nc = nx - 1`, `nxi = PyArray_DIM(xi,0)`, the
internal polynomial map freshly calloc-zeroed, the output buffers and the
per-axis strides taken from the arrays. -/
def wrapperWeno (k : ℤ) (xi_py x_py c_py beta_py : NDArray) : weno where
  k := k
  nx := x_py.dims 0
  nc := x_py.dims 0 - 1
  nxi := xi_py.dims 0
  x := x_py.data
  xi := xi_py.data
  c_irj_x := fun _ => ⟨0, fun _ => 0⟩
  c_ilrj := c_py.data
  beta := beta_py.data
  csi := c_py.strides 0
  csl := c_py.strides 1
  csr := c_py.strides 2
  csj := c_py.strides 3
  bsi := beta_py.strides 0
  bsr := beta_py.strides 1
  bsm := beta_py.strides 2
  bsn := beta_py.strides 3

/-- `py_nonuniform_coeffs` (nfweno.c lines 163-230).  Returns the error
message (if validation rejected the request) together with the final
contents of the two caller-owned output buffers. -/
def py_nonuniform_coeffs (k : ℤ) (xi_py x_py c_py beta_py : NDArray) :
    Option String × (ℤ → ℚ) × (ℤ → ℚ) :=
  if ¬(x_py.nd = 1 ∧ x_py.typ = PyArray_DOUBLE) then
    (some "x must be one-dimensional and of type double", c_py.data, beta_py.data)
  else if ¬(xi_py.nd = 1 ∧ xi_py.typ = PyArray_DOUBLE) then
    (some "xi must be one-dimensional and of type double", c_py.data, beta_py.data)
  else if ¬(c_py.nd = 4 ∧ c_py.typ = PyArray_DOUBLE) then
    (some "c must be four-dimensional and of type double", c_py.data, beta_py.data)
  else if ¬(beta_py.nd = 4 ∧ beta_py.typ = PyArray_DOUBLE) then
    (some "beta must be four-dimensional and of type double", c_py.data, beta_py.data)
  else
    let w3 := wenoPipeline (wrapperWeno k xi_py x_py c_py beta_py)
    (none, w3.c_ilrj, w3.beta)

/-! Basic facts about `intRange`. -/

theorem mem_intRange {a b t : ℤ} : t ∈ intRange a b ↔ a ≤ t ∧ t < b := by
  unfold intRange
  simp only [List.mem_map, List.mem_range]
  constructor
  · rintro ⟨u, hu, rfl⟩
    omega
  · rintro ⟨h1, h2⟩
    exact ⟨(t - a).toNat, by omega, by omega⟩

theorem intRange_eq_nil {a b : ℤ} (h : b ≤ a) : intRange a b = [] := by
  unfold intRange
  rw [Int.toNat_of_nonpos (by omega), List.range_zero, List.map_nil]

theorem intRange_nodup (a b : ℤ) : (intRange a b).Nodup :=
  (List.nodup_range _).map fun u v huv => by omega

theorem intRange_toFinset (a b : ℤ) : (intRange a b).toFinset = Finset.Icc a (b - 1) := by
  ext t
  rw [List.mem_toFinset, mem_intRange, Finset.mem_Icc]
  omega

/-! Reading back a fold of `Function.update` calls. -/

theorem foldl_update_not_mem {γ α β : Type} [DecidableEq α]
    (L : List γ) (key : γ → α) (val : γ → β) (f0 : α → β) (q : α)
    (h : ∀ t ∈ L, key t ≠ q) :
    (L.foldl (fun f t => Function.update f (key t) (val t)) f0) q = f0 q := by
  induction L generalizing f0 with
  | nil => rfl
  | cons t L ih =>
    rw [List.foldl_cons, ih _ fun u hu => h u (List.mem_cons_of_mem t hu),
      Function.update_noteq (by exact fun hq => h t (List.mem_cons_self t L) hq.symm)]

theorem foldl_update_read {γ α β : Type} [DecidableEq α]
    (L : List γ) (key : γ → α) (val : γ → β) (f0 : α → β) (t0 : γ)
    (huniq : ∀ t ∈ L, key t = key t0 → val t = val t0)
    (hstart : f0 (key t0) = val t0 ∨ t0 ∈ L) :
    (L.foldl (fun f t => Function.update f (key t) (val t)) f0) (key t0) = val t0 := by
  induction L generalizing f0 with
  | nil =>
    rcases hstart with h | h
    · exact h
    · exact absurd h (List.not_mem_nil t0)
  | cons t L ih =>
    rw [List.foldl_cons]
    refine ih _ (fun u hu => huniq u (List.mem_cons_of_mem t hu)) ?_
    by_cases hk : key t = key t0
    · left
      rw [← hk, Function.update_same]
      exact huniq t (List.mem_cons_self t L) hk
    · rcases hstart with h | h
      · left
        rwa [Function.update_noteq (by exact fun hq => hk hq.symm)]
      · rcases List.mem_cons.mp h with rfl | h
        · exact absurd rfl hk
        · right
          exact h

/-! Bridging the budgeted coefficient representation to Mathlib polynomials. -/

/-- Coefficient of `x^z` in a `CPoly`, reading slots above the budget as 0. -/
def coeffAt (q : CPoly) (z : ℕ) : ℚ := if z ≤ q.n then q.p z else 0

/-- The mathematical polynomial a `CPoly` represents. -/
noncomputable def toPolynomial (q : CPoly) : Polynomial ℚ :=
  ∑ z ∈ Finset.range (q.n + 1), Polynomial.C (q.p z) * Polynomial.X ^ z

theorem coeff_toPolynomial (q : CPoly) (z : ℕ) :
    (toPolynomial q).coeff z = coeffAt q z := by
  unfold toPolynomial coeffAt
  rw [Polynomial.finset_sum_coeff]
  simp only [Polynomial.coeff_C_mul, Polynomial.coeff_X_pow, mul_ite, mul_one, mul_zero]
  rw [Finset.sum_ite_eq (Finset.range (q.n + 1)) z q.p]
  simp [Nat.lt_succ_iff]

theorem toPolynomial_poly_zero (d : ℕ) : toPolynomial (poly_zero d) = 0 := by
  simp [toPolynomial, poly_zero]

theorem toPolynomial_poly_one (d : ℕ) : toPolynomial (poly_one d) = 1 := by
  unfold toPolynomial poly_one
  rw [Finset.sum_eq_single_of_mem 0 (Finset.mem_range.mpr (Nat.succ_pos d))]
  · simp
  · intro b _ hb
    simp [hb]

theorem toPolynomial_add (p1 p2 : CPoly) (h : p2.n = p1.n) :
    toPolynomial (inplace_poly_add p1 p2) = toPolynomial p1 + toPolynomial p2 := by
  ext z
  rw [Polynomial.coeff_add, coeff_toPolynomial, coeff_toPolynomial, coeff_toPolynomial]
  unfold coeffAt inplace_poly_add
  by_cases hz : z ≤ p1.n <;> simp [hz, h]

theorem toPolynomial_scale (p1 : CPoly) (a : ℚ) :
    toPolynomial (inplace_poly_scale p1 a) = Polynomial.C a * toPolynomial p1 := by
  ext z
  rw [Polynomial.coeff_C_mul, coeff_toPolynomial, coeff_toPolynomial]
  unfold coeffAt inplace_poly_scale
  by_cases hz : z ≤ p1.n <;> simp [hz, mul_comm]

theorem toPolynomial_mult_xpa (p1 : CPoly) (a : ℚ) (htop : p1.p p1.n = 0) :
    toPolynomial (inplace_poly_mult_xpa p1 a) =
      (Polynomial.X + Polynomial.C a) * toPolynomial p1 := by
  ext z
  rw [add_mul, Polynomial.coeff_add, Polynomial.coeff_C_mul, coeff_toPolynomial,
    coeff_toPolynomial]
  cases z with
  | zero =>
    rw [Polynomial.mul_coeff_zero]
    simp only [Polynomial.coeff_X_zero, zero_mul, zero_add]
    unfold coeffAt inplace_poly_mult_xpa
    simp
  | succ z =>
    rw [Polynomial.coeff_X_mul, coeff_toPolynomial]
    unfold coeffAt inplace_poly_mult_xpa
    simp only [Nat.succ_ne_zero, if_false, Nat.succ_sub_one]
    by_cases h1 : z + 1 ≤ p1.n
    · have h2 : z ≤ p1.n := by omega
      simp [h1, h2]
    · by_cases h2 : z ≤ p1.n
      · have h3 : z = p1.n := by omega
        simp [h1, h2, h3, htop]
      · simp [h1, h2]

/-- Slots from position `d` up to the budget hold zero. -/
def VanAbove (q : CPoly) (d : ℕ) : Prop := ∀ z, d ≤ z → z ≤ q.n → q.p z = 0

theorem vanAbove_mult_xpa {q : CPoly} {d : ℕ} (h : VanAbove q d) (a : ℚ) :
    VanAbove (inplace_poly_mult_xpa q a) (d + 1) := by
  intro z hz hzn
  have hzn2 : z ≤ q.n := hzn
  have hz0 : ¬ z = 0 := by omega
  show (if z = 0 then a * q.p 0 else if z ≤ q.n then q.p (z - 1) + a * q.p z else q.p z) = 0
  rw [if_neg hz0, if_pos hzn2, h (z - 1) (by omega) (by omega), h z (by omega) hzn2]
  ring

theorem foldl_mult_xpa_exact (as : List ℚ) :
    ∀ (q : CPoly) (d : ℕ), VanAbove q d → d + as.length ≤ q.n + 1 →
      toPolynomial (as.foldl (fun q1 a => inplace_poly_mult_xpa q1 a) q) =
          (as.map (fun a => Polynomial.X + Polynomial.C a)).prod * toPolynomial q ∧
        (as.foldl (fun q1 a => inplace_poly_mult_xpa q1 a) q).n = q.n ∧
        VanAbove (as.foldl (fun q1 a => inplace_poly_mult_xpa q1 a) q) (d + as.length) := by
  induction as with
  | nil =>
    intro q d h hb
    refine ⟨by simp, rfl, by simpa using h⟩
  | cons a as ih =>
    intro q d h hb
    have hd : d ≤ q.n := by
      simp only [List.length_cons] at hb
      omega
    have htop : q.p q.n = 0 := h q.n hd le_rfl
    have h1 := vanAbove_mult_xpa h a
    obtain ⟨e1, e2, e3⟩ := ih (inplace_poly_mult_xpa q a) (d + 1) h1 (by
      simp only [List.length_cons] at hb
      show d + 1 + as.length ≤ q.n + 1
      omega)
    refine ⟨?_, ?_, ?_⟩
    · rw [List.foldl_cons, e1, toPolynomial_mult_xpa q a htop, List.map_cons, List.prod_cons]
      ring
    · rw [List.foldl_cons]
      exact e2
    · rw [List.foldl_cons]
      have hlen : d + (a :: as).length = (d + 1) + as.length := by
        simp only [List.length_cons]
        omega
      rw [hlen]
      exact e3

theorem toPolynomial_poly_mult (q1 q2 : CPoly) :
    toPolynomial (poly_mult q1 q2) = toPolynomial q1 * toPolynomial q2 := by
  ext z
  rw [coeff_toPolynomial, Polynomial.coeff_mul,
    Finset.Nat.sum_antidiagonal_eq_sum_range_succ
      (fun a b => (toPolynomial q1).coeff a * (toPolynomial q2).coeff b) z]
  simp only [coeff_toPolynomial]
  have hL : coeffAt (poly_mult q1 q2) z =
      if z ≤ q1.n + q2.n then
        ∑ a ∈ Finset.range (z + 1),
          if a ≤ q1.n ∧ z - a ≤ q2.n then q1.p a * q2.p (z - a) else 0
      else 0 := rfl
  rw [hL]
  by_cases hz : z ≤ q1.n + q2.n
  · rw [if_pos hz]
    refine Finset.sum_congr rfl fun a _ => ?_
    unfold coeffAt
    by_cases h1 : a ≤ q1.n <;> by_cases h2 : z - a ≤ q2.n <;> simp [h1, h2]
  · rw [if_neg hz]
    symm
    refine Finset.sum_eq_zero fun a ha => ?_
    unfold coeffAt
    by_cases h1 : a ≤ q1.n
    · have h2 : ¬ (z - a ≤ q2.n) := by
        rw [Finset.mem_range] at ha
        omega
      simp [h2]
    · simp [h1]

/-- Real-valued evaluation of a `CPoly` (casting the rational coefficients). -/
def evalR (q : CPoly) (x : ℝ) : ℝ := ∑ z ∈ Finset.range (q.n + 1), (q.p z : ℝ) * x ^ z

theorem evalR_eq_aeval (q : CPoly) (x : ℝ) :
    evalR q x = Polynomial.aeval x (toPolynomial q) := by
  unfold evalR toPolynomial
  rw [map_sum]
  apply Finset.sum_congr rfl
  intro z _
  rw [map_mul, map_pow, Polynomial.aeval_C, Polynomial.aeval_X]
  rw [eq_ratCast (algebraMap ℚ ℝ) (q.p z)]

theorem evalR_poly_mult (q1 q2 : CPoly) (x : ℝ) :
    evalR (poly_mult q1 q2) x = evalR q1 x * evalR q2 x := by
  rw [evalR_eq_aeval, evalR_eq_aeval, evalR_eq_aeval, toPolynomial_poly_mult, map_mul]

theorem poly_int_cast (q : CPoly) (a b : ℚ) :
    ((poly_int q a b : ℚ) : ℝ) = ∫ x in (a : ℝ)..(b : ℝ), evalR q x := by
  unfold poly_int evalR
  rw [intervalIntegral.integral_finset_sum]
  · push_cast
    apply Finset.sum_congr rfl
    intro z _
    rw [intervalIntegral.integral_const_mul, integral_pow]
    ring
  · intro z _
    exact (continuous_const.mul (continuous_pow z)).intervalIntegrable _ _

theorem poly_int_sq_nonneg (q : CPoly) (b : ℚ) (hb : 0 ≤ b) :
    0 ≤ poly_int (poly_mult q q) 0 b := by
  have hR : (0 : ℝ) ≤ ((poly_int (poly_mult q q) 0 b : ℚ) : ℝ) := by
    rw [poly_int_cast]
    have h0 : ((0 : ℚ) : ℝ) = 0 := by norm_num
    rw [h0]
    refine intervalIntegral.integral_nonneg (by exact_mod_cast hb) ?_
    intro u _
    rw [evalR_poly_mult]
    exact mul_self_nonneg _
  exact_mod_cast hR

/-! Loop domains, packed-index injectivity, and field preservation. -/

theorem mem_reconTriples {w : weno} {i r j : ℤ} :
    (i, r, j) ∈ reconTriples w ↔
      (w.k - 1 ≤ i ∧ i < w.nc - (w.k - 1)) ∧ (0 ≤ r ∧ r < w.k) ∧ (0 ≤ j ∧ j < w.k) := by
  unfold reconTriples
  simp only [List.mem_flatMap, List.mem_map, mem_intRange, Prod.mk.injEq]
  constructor
  · rintro ⟨i2, hi2, r2, hr2, j2, hj2, rfl, rfl, rfl⟩
    exact ⟨hi2, hr2, hj2⟩
  · rintro ⟨hi, hr, hj⟩
    exact ⟨i, hi, r, hr, j, hj, rfl, rfl, rfl⟩

theorem mem_coefQuads {w : weno} {i r j n : ℤ} :
    (i, r, j, n) ∈ coefQuads w ↔
      (w.k - 1 ≤ i ∧ i < w.nc - (w.k - 1)) ∧ (0 ≤ r ∧ r < w.k) ∧
        (0 ≤ j ∧ j < w.k) ∧ (0 ≤ n ∧ n < w.nxi) := by
  unfold coefQuads
  simp only [List.mem_flatMap, List.mem_map, mem_intRange, Prod.mk.injEq]
  constructor
  · rintro ⟨i2, hi2, r2, hr2, j2, hj2, n2, hn2, rfl, rfl, rfl, rfl⟩
    exact ⟨hi2, hr2, hj2, hn2⟩
  · rintro ⟨hi, hr, hj, hn⟩
    exact ⟨i, hi, r, hr, j, hj, n, hn, rfl, rfl, rfl, rfl⟩

theorem mem_smoothQuads {w : weno} {i r m n : ℤ} :
    (i, r, m, n) ∈ smoothQuads w ↔
      (w.k - 1 ≤ i ∧ i < w.nc - (w.k - 1)) ∧ (0 ≤ r ∧ r < w.k) ∧
        (0 ≤ m ∧ m < w.k) ∧ (m ≤ n ∧ n < w.k) := by
  unfold smoothQuads
  simp only [List.mem_flatMap, List.mem_map, mem_intRange, Prod.mk.injEq]
  constructor
  · rintro ⟨i2, hi2, r2, hr2, m2, hm2, n2, hn2, rfl, rfl, rfl, rfl⟩
    exact ⟨hi2, hr2, hm2, hn2⟩
  · rintro ⟨hi, hr, hm, hn⟩
    exact ⟨i, hi, r, hr, m, hm, n, hn, rfl, rfl, rfl, rfl⟩

theorem packInj {K a s a2 s2 : ℤ} (hs : 0 ≤ s) (hsK : s < K) (hs2 : 0 ≤ s2) (hs2K : s2 < K)
    (h : a * K + s = a2 * K + s2) : a = a2 ∧ s = s2 := by
  have hK : 0 < K := lt_of_le_of_lt hs hsK
  have ha : a = a2 := by
    by_contra hne
    rcases lt_or_gt_of_ne hne with hlt | hgt
    · have h1 := mul_le_mul_of_nonneg_right (show a + 1 ≤ a2 by omega) hK.le
      linarith
    · have h1 := mul_le_mul_of_nonneg_right (show a2 + 1 ≤ a by omega) hK.le
      linarith
  subst ha
  exact ⟨rfl, by linarith⟩

theorem irjIndex_inj {w : weno} {i r j i2 r2 j2 : ℤ}
    (hr : 0 ≤ r) (hrk : r < w.k) (hj : 0 ≤ j) (hjk : j < w.k)
    (hr2 : 0 ≤ r2) (hrk2 : r2 < w.k) (hj2 : 0 ≤ j2) (hjk2 : j2 < w.k)
    (h : irjIndex w i r j = irjIndex w i2 r2 j2) : i = i2 ∧ r = r2 ∧ j = j2 := by
  have hk : 0 < w.k := lt_of_le_of_lt hr hrk
  have hs : 0 ≤ r * w.k + j := by
    have := mul_nonneg hr hk.le
    omega
  have hs2 : 0 ≤ r2 * w.k + j2 := by
    have := mul_nonneg hr2 hk.le
    omega
  have hsK : r * w.k + j < w.k * w.k := by
    have := mul_le_mul_of_nonneg_right (show r ≤ w.k - 1 by omega) hk.le
    nlinarith
  have hsK2 : r2 * w.k + j2 < w.k * w.k := by
    have := mul_le_mul_of_nonneg_right (show r2 ≤ w.k - 1 by omega) hk.le
    nlinarith
  have h2 : i * (w.k * w.k) + (r * w.k + j) = i2 * (w.k * w.k) + (r2 * w.k + j2) := by
    unfold irjIndex at h
    linarith
  obtain ⟨hi, hrj⟩ := packInj hs hsK hs2 hsK2 h2
  obtain ⟨hr, hj⟩ := packInj hj hjk hj2 hjk2 hrj
  exact ⟨hi, hr, hj⟩

theorem recon_polys_k (w : weno) : (weno_recon_polys w).k = w.k := rfl
theorem recon_polys_nx (w : weno) : (weno_recon_polys w).nx = w.nx := rfl
theorem recon_polys_nc (w : weno) : (weno_recon_polys w).nc = w.nc := rfl
theorem recon_polys_nxi (w : weno) : (weno_recon_polys w).nxi = w.nxi := rfl
theorem recon_polys_x (w : weno) : (weno_recon_polys w).x = w.x := rfl
theorem recon_polys_xi (w : weno) : (weno_recon_polys w).xi = w.xi := rfl
theorem recon_polys_c_ilrj (w : weno) : (weno_recon_polys w).c_ilrj = w.c_ilrj := rfl
theorem recon_polys_beta (w : weno) : (weno_recon_polys w).beta = w.beta := rfl
theorem recon_coefs_beta (w : weno) : (weno_recon_coefs w).beta = w.beta := rfl
theorem recon_coefs_c_irj_x (w : weno) : (weno_recon_coefs w).c_irj_x = w.c_irj_x := rfl
theorem smoothness_c_ilrj (w : weno) : (weno_smoothness_coefs w).c_ilrj = w.c_ilrj := rfl

/-! Reading each pass back at a visited index. -/

theorem recon_polys_read {w : weno} {i r j : ℤ} (hmem : (i, r, j) ∈ reconTriples w) :
    (weno_recon_polys w).c_irj_x (irjIndex w i r j) = reconPoly w i r j := by
  refine foldl_update_read (reconTriples w)
    (fun t => irjIndex w t.1 t.2.1 t.2.2) (fun t => reconPoly w t.1 t.2.1 t.2.2)
    w.c_irj_x (i, r, j) ?_ (Or.inr hmem)
  rintro ⟨i2, r2, j2⟩ ht hkey
  obtain ⟨_, hr2, hj2⟩ := mem_reconTriples.mp ht
  obtain ⟨_, hr, hj⟩ := mem_reconTriples.mp hmem
  obtain ⟨rfl, rfl, rfl⟩ :=
    irjIndex_inj hr2.1 hr2.2 hj2.1 hj2.2 hr.1 hr.2 hj.1 hj.2 hkey
  rfl

theorem recon_coefs_read {w : weno} {i r j n : ℤ} (hmem : (i, r, j, n) ∈ coefQuads w)
    (huniq : ∀ t ∈ coefQuads w,
      cIndex w t.1 t.2.2.2 t.2.1 t.2.2.1 = cIndex w i n r j → t = (i, r, j, n)) :
    (weno_recon_coefs w).c_ilrj (cIndex w i n r j) =
      poly_eval (w.c_irj_x (irjIndex w i r j)) (xiPhys w i n) := by
  refine foldl_update_read (coefQuads w)
    (fun t => cIndex w t.1 t.2.2.2 t.2.1 t.2.2.1)
    (fun t => poly_eval (w.c_irj_x (irjIndex w t.1 t.2.1 t.2.2.1)) (xiPhys w t.1 t.2.2.2))
    w.c_ilrj (i, r, j, n) ?_ (Or.inr hmem)
  intro t ht hkey
  rw [huniq t ht hkey]

theorem smoothness_read {w : weno} {i r m n : ℤ} (hmem : (i, r, m, n) ∈ smoothQuads w)
    (huniq : ∀ t ∈ smoothQuads w,
      bIndex w t.1 t.2.1 t.2.2.1 t.2.2.2 = bIndex w i r m n → t = (i, r, m, n)) :
    (weno_smoothness_coefs w).beta (bIndex w i r m n) = smoothVal w i r m n := by
  refine foldl_update_read (smoothQuads w)
    (fun t => bIndex w t.1 t.2.1 t.2.2.1 t.2.2.2)
    (fun t => smoothVal w t.1 t.2.1 t.2.2.1 t.2.2.2)
    w.beta (i, r, m, n) ?_ (Or.inr hmem)
  intro t ht hkey
  rw [huniq t ht hkey]

/-! The smoothness accumulation loop as a closed sum over derivative orders. -/

theorem poly_diff_one_iter (P : CPoly) (t : ℕ) :
    poly_diff (poly_diff P t) 1 = poly_diff P (t + 1) := by
  unfold poly_diff
  rw [Function.iterate_one, Function.iterate_succ_apply']

theorem smooth_fold_eq (multi dx : ℚ) :
    ∀ (t : ℕ) (P Q : CPoly) (c : ℚ),
      (((List.range t).map (fun (u : ℕ) => (1 : ℤ) + (u : ℤ))).foldl
        (fun (st : CPoly × CPoly × ℚ) d =>
          (poly_diff st.1 1, poly_diff st.2.1 1,
            st.2.2 + multi * dx ^ (2 * d - 1).toNat *
              poly_int (poly_mult (poly_diff st.1 1) (poly_diff st.2.1 1)) 0 dx))
        (P, Q, c))
      = (poly_diff P t, poly_diff Q t,
          c + ∑ d ∈ Finset.Icc 1 t, multi * dx ^ (2 * d - 1) *
            poly_int (poly_mult (poly_diff P d) (poly_diff Q d)) 0 dx) := by
  intro t
  induction t with
  | zero =>
    intro P Q c
    simp [poly_diff]
  | succ t ih =>
    intro P Q c
    rw [List.range_succ, List.map_append, List.foldl_append, ih]
    simp only [List.map_cons, List.map_nil, List.foldl_cons, List.foldl_nil]
    have he : (2 * ((1 : ℤ) + (t : ℤ)) - 1).toNat = 2 * (t + 1) - 1 := by omega
    simp only [Prod.mk.injEq]
    refine ⟨poly_diff_one_iter P t, poly_diff_one_iter Q t, ?_⟩
    rw [Finset.sum_Icc_succ_top (by omega : 1 ≤ t + 1), he,
      poly_diff_one_iter P t, poly_diff_one_iter Q t]
    ring

theorem smoothVal_eq_sum (w : weno) (i r m n : ℤ) :
    smoothVal w i r m n =
      ∑ d ∈ Finset.Icc 1 (w.k - 1).toNat,
        (if m = n then (1 : ℚ) else 2) * (w.x (i + 1) - w.x i) ^ (2 * d - 1) *
          poly_int (poly_mult (poly_diff (w.c_irj_x (irjIndex w i r m)) d)
              (poly_diff (w.c_irj_x (irjIndex w i r n)) d)) 0
            (w.x (i + 1) - w.x i) := by
  unfold smoothVal
  have hrange : intRange 1 w.k =
      (List.range (w.k - 1).toNat).map (fun (u : ℕ) => (1 : ℤ) + (u : ℤ)) := rfl
  rw [hrange, smooth_fold_eq]
  simp

/-! The builder folds as sums and products over explicit index sets. -/

theorem foldl_n_preserved {α : Type} (L : List α) (step : CPoly → α → CPoly)
    (hstep : ∀ q a, (step q a).n = q.n) : ∀ c : CPoly, (L.foldl step c).n = c.n := by
  induction L with
  | nil => intro c; rfl
  | cons a L ih =>
    intro c
    rw [List.foldl_cons, ih]
    exact hstep c a

theorem prdN_n (w : weno) (i r l m : ℤ) : (prdN w i r l m).n = (w.k - 1).toNat := by
  unfold prdN
  rw [foldl_n_preserved]
  · rfl
  · intro q a
    by_cases h : a = l ∨ a = m <;> simp [h, inplace_poly_mult_xpa]

theorem foldl_skip_filter {α β : Type} (L : List α) (P : α → Prop) [DecidablePred P]
    (step : β → α → β) : ∀ c : β,
    L.foldl (fun q a => if P a then q else step q a) c =
      (L.filter (fun a => ¬ P a)).foldl step c := by
  induction L with
  | nil => intro c; rfl
  | cons a L ih =>
    intro c
    rw [List.foldl_cons, List.filter_cons]
    by_cases h : P a
    · have hd : decide (¬ P a) = false := by simp [h]
      rw [if_pos h, hd]
      simp only [Bool.false_eq_true, if_false]
      exact ih c
    · have hd : decide (¬ P a) = true := by simp [h]
      rw [if_neg h, hd, if_pos rfl, List.foldl_cons]
      exact ih (step c a)

theorem foldl_mul_skip (L : List ℤ) (l : ℤ) (g : ℤ → ℚ) :
    ∀ c : ℚ, (L.foldl (fun a m => if m = l then a else a * g m) c) =
      c * ((L.filter (fun m => m ≠ l)).map g).prod := by
  induction L with
  | nil =>
    intro c
    simp
  | cons a L ih =>
    intro c
    rw [List.foldl_cons, List.filter_cons]
    by_cases h : a = l
    · have hd : decide (a ≠ l) = false := by simp [h]
      rw [if_pos h, hd]
      simp only [Bool.false_eq_true, if_false]
      exact ih c
    · have hd : decide (a ≠ l) = true := by simp [h]
      rw [if_neg h, hd, if_pos rfl, List.map_cons, List.prod_cons, ih (c * g a)]
      ring

theorem filter_ne_intRange_toFinset (a b l : ℤ) :
    ((intRange a b).filter (fun m => m ≠ l)).toFinset = (Finset.Icc a (b - 1)).erase l := by
  ext t
  simp only [List.mem_toFinset, List.mem_filter, mem_intRange, Finset.mem_erase,
    Finset.mem_Icc, ne_eq, decide_eq_true_eq]
  omega

theorem lagDenom_eq_prod (w : weno) (i r l : ℤ) :
    lagDenom w i r l =
      ∏ m ∈ (Finset.Icc 0 w.k).erase l, (nodeVal w i r l - nodeVal w i r m) := by
  unfold lagDenom
  rw [foldl_mul_skip, one_mul,
    ← List.prod_toFinset _ ((intRange_nodup 0 (w.k + 1)).filter _),
    filter_ne_intRange_toFinset, add_sub_cancel_right]

theorem vanAbove_poly_one (d : ℕ) : VanAbove (poly_one d) 1 := by
  intro z hz _
  show (if z = 0 then (1 : ℚ) else 0) = 0
  rw [if_neg (by omega)]

theorem foldl_mult_xpa_exact_map (L : List ℤ) (g : ℤ → ℚ) (q : CPoly) (d : ℕ)
    (h : VanAbove q d) (hb : d + L.length ≤ q.n + 1) :
    toPolynomial (L.foldl (fun q1 nn => inplace_poly_mult_xpa q1 (g nn)) q) =
        ((L.map fun nn => Polynomial.X + Polynomial.C (g nn)).prod) * toPolynomial q ∧
      (L.foldl (fun q1 nn => inplace_poly_mult_xpa q1 (g nn)) q).n = q.n := by
  obtain ⟨e1, e2, _⟩ := foldl_mult_xpa_exact (L.map g) q d h (by
    rw [List.length_map]
    exact hb)
  rw [List.foldl_map] at e1 e2
  rw [List.map_map] at e1
  exact ⟨e1, e2⟩

theorem prdN_filter_toFinset (w : weno) (l m : ℤ) :
    ((intRange 0 (w.k + 1)).filter (fun nn => ¬ (nn = l ∨ nn = m))).toFinset =
      ((Finset.Icc 0 w.k).erase l).erase m := by
  ext t
  simp only [List.mem_toFinset, List.mem_filter, mem_intRange, Finset.mem_erase,
    Finset.mem_Icc, decide_eq_true_eq]
  omega

theorem prdN_toPolynomial (w : weno) (i r l m : ℤ)
    (hl : 0 ≤ l) (hlk : l ≤ w.k) (hm : 0 ≤ m) (hmk : m ≤ w.k) (hlm : l ≠ m) :
    toPolynomial (prdN w i r l m) =
      ∏ nn ∈ ((Finset.Icc 0 w.k).erase l).erase m,
        (Polynomial.X - Polynomial.C (nodeVal w i r nn)) := by
  have hnodup := (intRange_nodup 0 (w.k + 1)).filter
    (fun nn => decide ¬ (nn = l ∨ nn = m))
  have hfin := prdN_filter_toFinset w l m
  have hcard : (((Finset.Icc 0 w.k).erase l).erase m).card = (w.k + 1).toNat - 2 := by
    rw [Finset.card_erase_of_mem
        (Finset.mem_erase.mpr ⟨hlm.symm, Finset.mem_Icc.mpr ⟨hm, hmk⟩⟩),
      Finset.card_erase_of_mem (Finset.mem_Icc.mpr ⟨hl, hlk⟩), Int.card_Icc]
    omega
  have hlen : ((intRange 0 (w.k + 1)).filter (fun nn => ¬ (nn = l ∨ nn = m))).length =
      (w.k + 1).toNat - 2 := by
    rw [← List.toFinset_card_of_nodup hnodup, hfin, hcard]
  unfold prdN
  rw [foldl_skip_filter (intRange 0 (w.k + 1)) (fun nn => nn = l ∨ nn = m)
    (fun q nn => inplace_poly_mult_xpa q (-(nodeVal w i r nn)))]
  obtain ⟨e1, _⟩ := foldl_mult_xpa_exact_map
    ((intRange 0 (w.k + 1)).filter (fun nn => ¬ (nn = l ∨ nn = m)))
    (fun nn => -(nodeVal w i r nn)) (poly_one (w.k - 1).toNat) 1
    (vanAbove_poly_one _) (by
      rw [hlen]
      show 1 + ((w.k + 1).toNat - 2) ≤ (w.k - 1).toNat + 1
      omega)
  rw [e1, toPolynomial_poly_one, mul_one,
    ← List.prod_toFinset _ hnodup, hfin]
  refine Finset.prod_congr rfl fun nn _ => ?_
  rw [Polynomial.C_neg]
  ring

theorem foldl_add_skip_toPolynomial (L : List ℤ) (l : ℤ) (F : ℤ → CPoly) :
    ∀ init : CPoly, (∀ m ∈ L, (F m).n = init.n) →
      toPolynomial (L.foldl (fun s m => if m = l then s else inplace_poly_add s (F m)) init) =
          toPolynomial init +
            ((L.filter (fun m => m ≠ l)).map (fun m => toPolynomial (F m))).sum ∧
        (L.foldl (fun s m => if m = l then s else inplace_poly_add s (F m)) init).n = init.n := by
  induction L with
  | nil =>
    intro init hn
    simp
  | cons a L ih =>
    intro init hn
    rw [List.foldl_cons, List.filter_cons]
    by_cases h : a = l
    · have hd : decide (a ≠ l) = false := by simp [h]
      rw [if_pos h, hd]
      simp only [Bool.false_eq_true, if_false]
      exact ih init fun m hm => hn m (List.mem_cons_of_mem a hm)
    · have hd : decide (a ≠ l) = true := by simp [h]
      have hna : (F a).n = init.n := hn a (List.mem_cons_self a L)
      obtain ⟨e1, e2⟩ := ih (inplace_poly_add init (F a))
        (fun m hm => hn m (List.mem_cons_of_mem a hm))
      rw [if_neg h, hd, if_pos rfl, List.map_cons, List.sum_cons]
      constructor
      · rw [e1, toPolynomial_add init (F a) hna]
        ring
      · rw [e2]
        rfl

theorem sumM_toPolynomial (w : weno) (i r l : ℤ) :
    toPolynomial (sumM w i r l) =
        ∑ m ∈ (Finset.Icc 0 w.k).erase l, toPolynomial (prdN w i r l m) ∧
      (sumM w i r l).n = (w.k - 1).toNat := by
  obtain ⟨e1, e2⟩ := foldl_add_skip_toPolynomial (intRange 0 (w.k + 1)) l
    (fun m => prdN w i r l m) (poly_zero (w.k - 1).toNat)
    (fun m _ => prdN_n w i r l m)
  constructor
  · unfold sumM
    rw [e1, toPolynomial_poly_zero, zero_add,
      ← List.sum_toFinset _ ((intRange_nodup 0 (w.k + 1)).filter _),
      filter_ne_intRange_toFinset, add_sub_cancel_right]
  · unfold sumM
    rw [e2]
    rfl

theorem foldl_add_toPolynomial (L : List ℤ) (F : ℤ → CPoly) :
    ∀ init : CPoly, (∀ m ∈ L, (F m).n = init.n) →
      toPolynomial (L.foldl (fun s m => inplace_poly_add s (F m)) init) =
        toPolynomial init + ((L.map (fun m => toPolynomial (F m))).sum) := by
  induction L with
  | nil =>
    intro init _
    simp
  | cons a L ih =>
    intro init hn
    rw [List.foldl_cons, List.map_cons, List.sum_cons,
      ih (inplace_poly_add init (F a)) (fun m hm => hn m (List.mem_cons_of_mem a hm)),
      toPolynomial_add init (F a) (hn a (List.mem_cons_self a L))]
    ring

theorem reconPoly_toPolynomial (w : weno) (i r j : ℤ) :
    toPolynomial (reconPoly w i r j) =
      ∑ l ∈ Finset.Icc (j + 1) w.k,
        Polynomial.C (lagDenom w i r l)⁻¹ * toPolynomial (sumM w i r l) := by
  unfold reconPoly
  rw [foldl_add_toPolynomial (intRange (j + 1) (w.k + 1))
      (fun l => inplace_poly_scale (sumM w i r l) (lagDenom w i r l)⁻¹)
      (poly_zero (w.k - 1).toNat)
      (fun l _ => (sumM_toPolynomial w i r l).2),
    toPolynomial_poly_zero, zero_add,
    ← List.sum_toFinset _ (intRange_nodup (j + 1) (w.k + 1)),
    intRange_toFinset, add_sub_cancel_right]
  refine Finset.sum_congr rfl fun l _ => ?_
  rw [toPolynomial_scale]

/-! Concrete fixtures and the claim theorems. -/

/-- Test fixture from the spec scenario: `k = 2`, grid `x = [0,1,2,3,4]`
(`nx = 5`, `nc = 4`), one evaluation point `xi = [0]`, C-contiguous strides
for extents `(4,1,2,2)` (tensor `c`) and `(4,2,2,2)` (tensor `beta`),
zero-initialized buffers. -/
def testW5 : weno where
  k := 2
  nx := 5
  nc := 4
  nxi := 1
  x := fun jj => (jj : ℚ)
  xi := fun _ => 0
  c_irj_x := fun _ => ⟨0, fun _ => 0⟩
  c_ilrj := fun _ => 0
  beta := fun _ => 0
  csi := 4
  csl := 4
  csr := 2
  csj := 1
  bsi := 8
  bsr := 4
  bsm := 2
  bsn := 1

/-- Modelled from the spec (claim C1 wording, section 4.2): for a given `l`,
the SINGLE polynomial product over every node index `m ∈ [0,k]`, `m ≠ l`,
of the binomial `(x - node m)`, built here with degree budget `k` so that
the degree-`k` product is represented exactly. -/
def specSingleProd (w : weno) (i r l : ℤ) : CPoly :=
  (intRange 0 (w.k + 1)).foldl
    (fun q m => if m = l then q else inplace_poly_mult_xpa q (-(nodeVal w i r m)))
    (poly_one w.k.toNat)

/-- Modelled from the spec (claim C1 wording): the polynomial the claim
describes at `(i,r,j)`: the sum over `l` from `j+1` to `k` of
`specSingleProd` scaled by the reciprocal Lagrange denominator. -/
def specClaimPoly (w : weno) (i r j : ℤ) : CPoly :=
  (intRange (j + 1) (w.k + 1)).foldl
    (fun acc l =>
      inplace_poly_add acc
        (inplace_poly_scale (specSingleProd w i r l) (lagDenom w i r l)⁻¹))
    (poly_zero w.k.toNat)

/-- Claim C1 counterexample: at `k = 2`, grid `[0,1,2,3,4]`,
`(i,r,j) = (1,0,0)`, the polynomial stored by `weno_recon_polys` has
constant coefficient `3/2`, while the polynomial described by the spec
sentence (single Lagrange product per `l`, scaled by the reciprocal
denominator) has constant coefficient `0`; the stored polynomial is NOT the
described one. -/
theorem claim1_counterexample :
    coeffAt ((weno_recon_polys testW5).c_irj_x (irjIndex testW5 1 0 0)) 0 ≠
      coeffAt (specClaimPoly testW5 1 0 0) 0 := by
  have h1 : coeffAt ((weno_recon_polys testW5).c_irj_x (irjIndex testW5 1 0 0)) 0 = 3/2 := by
    simp only [coeffAt, weno_recon_polys, reconTriples, intRange, irjIndex,
      reconPoly, sumM, prdN, lagDenom, poly_zero, poly_one, inplace_poly_add,
      inplace_poly_scale, inplace_poly_mult_xpa, nodeVal, xlocal, nodeWindowIndex,
      xlocalGridIndex, testW5]
    simp [List.range_succ, List.flatMap_cons, List.flatMap_nil, Function.update_apply]
    norm_num
  have h2 : coeffAt (specClaimPoly testW5 1 0 0) 0 = 0 := by
    simp only [coeffAt, specClaimPoly, specSingleProd, intRange, lagDenom,
      poly_zero, poly_one, inplace_poly_add, inplace_poly_scale,
      inplace_poly_mult_xpa, nodeVal, xlocal, nodeWindowIndex, xlocalGridIndex, testW5]
    simp [List.range_succ, List.flatMap_cons, List.flatMap_nil, Function.update_apply]
  rw [h1, h2]
  norm_num

/-- Claim C1 (amended): for every interior cell `i`, shift `r` and neighbor
`j` in range, the polynomial stored by `weno_recon_polys` at `(i,r,j)`
equals the sum over `l` from `j+1` to `k` of the SUM, over `m ∈ [0,k]`
with `m ≠ l`, of the product over `n ∈ [0,k]` with `n ∉ {l,m}` of the
binomials `(x - node n)`, scaled by the reciprocal of the product over
`m ∈ [0,k]`, `m ≠ l`, of `(node l - node m)`, where
`node n = xlocal[il-r+n]`, `il = k-1`, `xlocal[j] = x[i-il+j] - x[i]`.
(The spec describes a single product over `m ≠ l`; the code computes the
sum over `m ≠ l` of products omitting both `l` and `m`.) -/
theorem claim1_amended (w : weno) (i r j : ℤ)
    (hi1 : w.k - 1 ≤ i) (hi2 : i < w.nc - (w.k - 1))
    (hr1 : 0 ≤ r) (hr2 : r < w.k) (hj1 : 0 ≤ j) (hj2 : j < w.k) :
    toPolynomial ((weno_recon_polys w).c_irj_x (irjIndex w i r j)) =
      ∑ l ∈ Finset.Icc (j + 1) w.k,
        Polynomial.C (∏ m ∈ (Finset.Icc 0 w.k).erase l,
            (nodeVal w i r l - nodeVal w i r m))⁻¹ *
          ∑ m ∈ (Finset.Icc 0 w.k).erase l,
            ∏ nn ∈ ((Finset.Icc 0 w.k).erase l).erase m,
              (Polynomial.X - Polynomial.C (nodeVal w i r nn)) := by
  rw [recon_polys_read (mem_reconTriples.mpr ⟨⟨hi1, hi2⟩, ⟨hr1, hr2⟩, ⟨hj1, hj2⟩⟩),
    reconPoly_toPolynomial]
  refine Finset.sum_congr rfl fun l hl => ?_
  rw [Finset.mem_Icc] at hl
  rw [← lagDenom_eq_prod, (sumM_toPolynomial w i r l).1]
  congr 1
  refine Finset.sum_congr rfl fun m hm => ?_
  rw [Finset.mem_erase, Finset.mem_Icc] at hm
  exact prdN_toPolynomial w i r l m (by omega) (by omega) (by omega) (by omega) (by omega)

/-- Witness for claim C1 (amended) at `k = 2`, grid `[0,1,2,3,4]`,
`(i,r,j) = (1,0,0)`. -/
theorem claim1_amended_witness :
    (testW5.k - 1 ≤ 1 ∧ (1 : ℤ) < testW5.nc - (testW5.k - 1) ∧
      (0 : ℤ) ≤ 0 ∧ (0 : ℤ) < testW5.k) ∧
    toPolynomial ((weno_recon_polys testW5).c_irj_x (irjIndex testW5 1 0 0)) =
      ∑ l ∈ Finset.Icc (0 + 1) testW5.k,
        Polynomial.C (∏ m ∈ (Finset.Icc 0 testW5.k).erase l,
            (nodeVal testW5 1 0 l - nodeVal testW5 1 0 m))⁻¹ *
          ∑ m ∈ (Finset.Icc 0 testW5.k).erase l,
            ∏ nn ∈ ((Finset.Icc 0 testW5.k).erase l).erase m,
              (Polynomial.X - Polynomial.C (nodeVal testW5 1 0 nn)) :=
  ⟨⟨by decide, by decide, by decide, by decide⟩,
    claim1_amended testW5 1 0 0 (by decide) (by decide) (by decide) (by decide)
      (by decide) (by decide)⟩

set_option maxHeartbeats 4000000 in
/-- Claim C3 counterexample: with `k = 2`, grid `[0,1,2,3,4]`, evaluation
point `xi = [0]` (cell midpoint, physical offset `dx/2`), the computed
coefficients `c[i=1, l=0, r, j]` are `(1, 0)` for `r = 0` and `(0, 1)` for
`r = 1` — NOT `{3/2, -1/2}` for one shift and `{1/2, 3/2}` for the other
under either assignment of the two shifts. -/
theorem claim3_counterexample :
    ¬ ((((weno_recon_coefs (weno_recon_polys testW5)).c_ilrj (cIndex testW5 1 0 0 0) = 3/2 ∧
         (weno_recon_coefs (weno_recon_polys testW5)).c_ilrj (cIndex testW5 1 0 0 1) = -(1/2)) ∧
        ((weno_recon_coefs (weno_recon_polys testW5)).c_ilrj (cIndex testW5 1 0 1 0) = 1/2 ∧
         (weno_recon_coefs (weno_recon_polys testW5)).c_ilrj (cIndex testW5 1 0 1 1) = 3/2)) ∨
       (((weno_recon_coefs (weno_recon_polys testW5)).c_ilrj (cIndex testW5 1 0 0 0) = 1/2 ∧
         (weno_recon_coefs (weno_recon_polys testW5)).c_ilrj (cIndex testW5 1 0 0 1) = 3/2) ∧
        ((weno_recon_coefs (weno_recon_polys testW5)).c_ilrj (cIndex testW5 1 0 1 0) = 3/2 ∧
         (weno_recon_coefs (weno_recon_polys testW5)).c_ilrj (cIndex testW5 1 0 1 1) = -(1/2)))) := by
  have h00 : (weno_recon_coefs (weno_recon_polys testW5)).c_ilrj (cIndex testW5 1 0 0 0) = 1 := by
    simp only [weno_recon_coefs, weno_recon_polys, coefQuads, reconTriples, intRange,
      irjIndex, cIndex, poly_eval, xiPhys, reconPoly, sumM, prdN, lagDenom, poly_zero,
      poly_one, inplace_poly_add, inplace_poly_scale, inplace_poly_mult_xpa, nodeVal,
      xlocal, nodeWindowIndex, xlocalGridIndex, testW5]
    simp [List.range_succ, List.flatMap_cons, List.flatMap_nil, Function.update_apply,
      Finset.sum_range_succ]
    norm_num
  rintro (⟨⟨h, _⟩, _⟩ | ⟨⟨h, _⟩, _⟩) <;> rw [h00] at h <;> norm_num at h

set_option maxHeartbeats 16000000 in
/-- Claim C3 (amended): with `k = 2`, grid `[0,1,2,3,4]`, evaluation point
`xi = [0]` (cell midpoint), the coefficients `c[i=1, l=0, r, j]` are
`(1, 0)` for shift `r = 0` and `(0, 1)` for shift `r = 1`: at the cell
midpoint the second-order reconstruction reduces to the target cell
average. -/
theorem claim3_amended :
    (weno_recon_coefs (weno_recon_polys testW5)).c_ilrj (cIndex testW5 1 0 0 0) = 1 ∧
    (weno_recon_coefs (weno_recon_polys testW5)).c_ilrj (cIndex testW5 1 0 0 1) = 0 ∧
    (weno_recon_coefs (weno_recon_polys testW5)).c_ilrj (cIndex testW5 1 0 1 0) = 0 ∧
    (weno_recon_coefs (weno_recon_polys testW5)).c_ilrj (cIndex testW5 1 0 1 1) = 1 := by
  refine ⟨?_, ?_, ?_, ?_⟩ <;>
    · simp only [weno_recon_coefs, weno_recon_polys, coefQuads, reconTriples, intRange,
        irjIndex, cIndex, poly_eval, xiPhys, reconPoly, sumM, prdN, lagDenom, poly_zero,
        poly_one, inplace_poly_add, inplace_poly_scale, inplace_poly_mult_xpa, nodeVal,
        xlocal, nodeWindowIndex, xlocalGridIndex, testW5]
      simp [List.range_succ, List.flatMap_cons, List.flatMap_nil, Function.update_apply,
        Finset.sum_range_succ]
      try norm_num

/-- Claim C2: the smoothness entry stored at `(i,r,m,n)` (with `m ≤ n`, all
indices in range, and the strided addressing separating the visited
entries) equals the sum over derivative order `d` from 1 to `k-1` of
`multiplicity * dx^(2d-1)` times the definite integral over `[0,dx]` of
the product of the `d`-th derivatives of the reconstruction polynomials
for `(i,r,m)` and `(i,r,n)`, where `dx = x[i+1] - x[i]` and multiplicity
is 1 when `m = n` and 2 otherwise. -/
theorem claim2_smoothness_formula (w : weno) (i r m n : ℤ)
    (hi1 : w.k - 1 ≤ i) (hi2 : i < w.nc - (w.k - 1))
    (hr1 : 0 ≤ r) (hr2 : r < w.k) (hm1 : 0 ≤ m) (hmn : m ≤ n) (hn2 : n < w.k)
    (huniq : ∀ t ∈ smoothQuads w,
      bIndex w t.1 t.2.1 t.2.2.1 t.2.2.2 = bIndex w i r m n → t = (i, r, m, n)) :
    (weno_smoothness_coefs w).beta (bIndex w i r m n) =
      ∑ d ∈ Finset.Icc 1 (w.k - 1).toNat,
        (if m = n then (1 : ℚ) else 2) * (w.x (i + 1) - w.x i) ^ (2 * d - 1) *
          poly_int (poly_mult (poly_diff (w.c_irj_x (irjIndex w i r m)) d)
              (poly_diff (w.c_irj_x (irjIndex w i r n)) d)) 0
            (w.x (i + 1) - w.x i) := by
  rw [smoothness_read
      (mem_smoothQuads.mpr ⟨⟨hi1, hi2⟩, ⟨hr1, hr2⟩, ⟨hm1, by omega⟩, ⟨hmn, hn2⟩⟩) huniq,
    smoothVal_eq_sum]

/-- Witness for claim C2 at `k = 2`, grid `[0,1,2,3,4]`, entry `(1,0,0,1)`. -/
theorem claim2_witness :
    ((testW5.k - 1 ≤ 1 ∧ (1 : ℤ) < testW5.nc - (testW5.k - 1) ∧
        (0 : ℤ) ≤ 0 ∧ (0 : ℤ) < testW5.k ∧ (0 : ℤ) ≤ 0 ∧ (0 : ℤ) ≤ 1 ∧ (1 : ℤ) < testW5.k) ∧
      (∀ t ∈ smoothQuads testW5,
        bIndex testW5 t.1 t.2.1 t.2.2.1 t.2.2.2 = bIndex testW5 1 0 0 1 →
          t = (1, 0, 0, 1))) ∧
    (weno_smoothness_coefs testW5).beta (bIndex testW5 1 0 0 1) =
      ∑ d ∈ Finset.Icc 1 (testW5.k - 1).toNat,
        (if (0 : ℤ) = 1 then (1 : ℚ) else 2) * (testW5.x (1 + 1) - testW5.x 1) ^ (2 * d - 1) *
          poly_int (poly_mult (poly_diff (testW5.c_irj_x (irjIndex testW5 1 0 0)) d)
              (poly_diff (testW5.c_irj_x (irjIndex testW5 1 0 1)) d)) 0
            (testW5.x (1 + 1) - testW5.x 1) :=
  ⟨⟨⟨by decide, by decide, by decide, by decide, by decide, by decide, by decide⟩, by decide⟩,
    claim2_smoothness_formula testW5 1 0 0 1 (by decide) (by decide) (by decide) (by decide)
      (by decide) (by decide) (by decide) (by decide)⟩

/-- Claim C6: for a grid that is (locally) non-decreasing at cell `i`
(in particular for every strictly increasing grid), all indices in range
and the strided addressing separating the visited entries, the diagonal
smoothness entry `beta[i,r,m,m]` computed by `weno_smoothness_coefs` is
nonnegative. -/
theorem claim6_beta_diag_nonneg (w : weno) (i r m : ℤ)
    (hi1 : w.k - 1 ≤ i) (hi2 : i < w.nc - (w.k - 1))
    (hr1 : 0 ≤ r) (hr2 : r < w.k) (hm1 : 0 ≤ m) (hm2 : m < w.k)
    (hdx : 0 ≤ w.x (i + 1) - w.x i)
    (huniq : ∀ t ∈ smoothQuads w,
      bIndex w t.1 t.2.1 t.2.2.1 t.2.2.2 = bIndex w i r m m → t = (i, r, m, m)) :
    0 ≤ (weno_smoothness_coefs w).beta (bIndex w i r m m) := by
  rw [smoothness_read
      (mem_smoothQuads.mpr ⟨⟨hi1, hi2⟩, ⟨hr1, hr2⟩, ⟨hm1, hm2⟩, ⟨le_rfl, hm2⟩⟩) huniq,
    smoothVal_eq_sum]
  refine Finset.sum_nonneg fun d _ => ?_
  rw [if_pos rfl, one_mul]
  exact mul_nonneg (pow_nonneg hdx _) (poly_int_sq_nonneg _ _ hdx)

/-- Witness for claim C6 at `k = 2`, grid `[0,1,2,3,4]`, entry `(1,0,0,0)`. -/
theorem claim6_witness :
    ((testW5.k - 1 ≤ 1 ∧ (1 : ℤ) < testW5.nc - (testW5.k - 1) ∧
        (0 : ℤ) ≤ 0 ∧ (0 : ℤ) < testW5.k ∧ (0 : ℤ) ≤ 0 ∧ (0 : ℤ) < testW5.k) ∧
      0 ≤ testW5.x (1 + 1) - testW5.x 1 ∧
      (∀ t ∈ smoothQuads testW5,
        bIndex testW5 t.1 t.2.1 t.2.2.1 t.2.2.2 = bIndex testW5 1 0 0 0 →
          t = (1, 0, 0, 0))) ∧
    0 ≤ (weno_smoothness_coefs testW5).beta (bIndex testW5 1 0 0 0) :=
  ⟨⟨⟨by decide, by decide, by decide, by decide, by decide, by decide⟩,
      by norm_num [testW5], by decide⟩,
    claim6_beta_diag_nonneg testW5 1 0 0 (by decide) (by decide) (by decide) (by decide)
      (by decide) (by decide) (by norm_num [testW5]) (by decide)⟩

/-- Claim C7: (1) `inplace_poly_mult_xpa` agrees with the exact product
`(x + a) p(x)` on every coefficient slot up to the budget — only the
coefficient that would land at degree `n + 1` is dropped; (2) folding it
over any list of at most `d` binomial factors starting from `poly_one d`
yields exactly the polynomial product (no truncation when the factor
count fits the budget); (3) hence every `prd_n` product inside
`weno_recon_polys` — exactly `k-1` factors applied to the constant 1 on
budget `k-1`, each invocation seeing an argument of degree strictly below
the budget — is the exact product of its binomials. -/
theorem claim7_mult_xpa_exact :
    (∀ (p1 : CPoly) (a : ℚ) (z : ℕ), z ≤ p1.n →
      (inplace_poly_mult_xpa p1 a).p z =
        ((Polynomial.X + Polynomial.C a) * toPolynomial p1).coeff z) ∧
    (∀ (as : List ℚ) (d : ℕ), as.length ≤ d →
      toPolynomial (as.foldl (fun q a => inplace_poly_mult_xpa q a) (poly_one d)) =
        (as.map (fun a => Polynomial.X + Polynomial.C a)).prod) ∧
    (∀ (w : weno) (i r l m : ℤ), 0 ≤ l → l ≤ w.k → 0 ≤ m → m ≤ w.k → l ≠ m →
      toPolynomial (prdN w i r l m) =
        ∏ nn ∈ ((Finset.Icc 0 w.k).erase l).erase m,
          (Polynomial.X - Polynomial.C (nodeVal w i r nn))) := by
  refine ⟨?_, ?_, fun w i r l m hl hlk hm hmk hlm =>
    prdN_toPolynomial w i r l m hl hlk hm hmk hlm⟩
  · intro p1 a z hz
    rw [add_mul, Polynomial.coeff_add, Polynomial.coeff_C_mul, coeff_toPolynomial]
    cases z with
    | zero =>
      rw [Polynomial.mul_coeff_zero]
      simp only [Polynomial.coeff_X_zero, zero_mul, zero_add]
      show a * p1.p 0 = a * coeffAt p1 0
      unfold coeffAt
      rw [if_pos (Nat.zero_le _)]
    | succ z0 =>
      rw [Polynomial.coeff_X_mul, coeff_toPolynomial]
      show (if z0 + 1 = 0 then a * p1.p 0
        else if z0 + 1 ≤ p1.n then p1.p (z0 + 1 - 1) + a * p1.p (z0 + 1)
        else p1.p (z0 + 1)) = coeffAt p1 z0 + a * coeffAt p1 (z0 + 1)
      rw [if_neg (Nat.succ_ne_zero z0), if_pos hz]
      unfold coeffAt
      rw [if_pos (by omega : z0 ≤ p1.n), if_pos hz, Nat.add_sub_cancel]
  · intro as d hlen
    obtain ⟨e1, _, _⟩ := foldl_mult_xpa_exact as (poly_one d) 1 (vanAbove_poly_one d) (by
      show 1 + as.length ≤ d + 1
      omega)
    rw [e1, toPolynomial_poly_one, mul_one]

/-- Witness for claim C7: part 1 at a concrete polynomial and slot, part 2
at a concrete two-element factor list, part 3 at `k = 2`, grid
`[0,1,2,3,4]`, `(i,r,l,m) = (1,0,1,0)`. -/
theorem claim7_witness :
    ((1 ≤ (poly_one 2).n) ∧
      (inplace_poly_mult_xpa (poly_one 2) 5).p 1 =
        ((Polynomial.X + Polynomial.C 5) * toPolynomial (poly_one 2)).coeff 1) ∧
    (([(2 : ℚ), 3].length ≤ 2) ∧
      toPolynomial ([(2 : ℚ), 3].foldl (fun q a => inplace_poly_mult_xpa q a) (poly_one 2)) =
        ([(2 : ℚ), 3].map (fun a => Polynomial.X + Polynomial.C a)).prod) ∧
    (((0 : ℤ) ≤ 1 ∧ (1 : ℤ) ≤ testW5.k ∧ (0 : ℤ) ≤ 0 ∧ (0 : ℤ) ≤ testW5.k ∧ (1 : ℤ) ≠ 0) ∧
      toPolynomial (prdN testW5 1 0 1 0) =
        ∏ nn ∈ ((Finset.Icc 0 testW5.k).erase 1).erase 0,
          (Polynomial.X - Polynomial.C (nodeVal testW5 1 0 nn))) :=
  ⟨⟨by decide, claim7_mult_xpa_exact.1 (poly_one 2) 5 1 (by decide)⟩,
    ⟨by decide, claim7_mult_xpa_exact.2.1 [2, 3] 2 (by decide)⟩,
    ⟨⟨by decide, by decide, by decide, by decide, by decide⟩,
      claim7_mult_xpa_exact.2.2 testW5 1 0 1 0 (by decide) (by decide) (by decide)
        (by decide) (by decide)⟩⟩

/-- Logical index box of the reconstruction-coefficient tensor, tuples
ordered `(i, l, r, j)` with extents `(nc, nxi, k, k)`. -/
def cBox (w : weno) : Finset (ℤ × ℤ × ℤ × ℤ) :=
  Finset.Icc 0 (w.nc - 1) ×ˢ Finset.Icc 0 (w.nxi - 1) ×ˢ Finset.Icc 0 (w.k - 1) ×ˢ
    Finset.Icc 0 (w.k - 1)

/-- Logical index box of the smoothness tensor, tuples ordered
`(i, r, m, n)` with extents `(nc, k, k, k)`. -/
def bBox (w : weno) : Finset (ℤ × ℤ × ℤ × ℤ) :=
  Finset.Icc 0 (w.nc - 1) ×ˢ Finset.Icc 0 (w.k - 1) ×ˢ Finset.Icc 0 (w.k - 1) ×ˢ
    Finset.Icc 0 (w.k - 1)

/-- Claim C4: provided the strided addressing is injective on the logical
index box of each tensor, the computation never writes a
reconstruction-coefficient entry or a smoothness entry whose cell index
lies outside `[k-1, nc-(k-1))`, nor a smoothness entry with `n < m`: all
such entries hold exactly their pre-call values after all three passes. -/
theorem claim4_frame (w : weno) :
    (∀ i l r j : ℤ, (i, l, r, j) ∈ cBox w →
      (∀ t1 ∈ cBox w, ∀ t2 ∈ cBox w,
        cIndex w t1.1 t1.2.1 t1.2.2.1 t1.2.2.2 = cIndex w t2.1 t2.2.1 t2.2.2.1 t2.2.2.2 →
          t1 = t2) →
      (i < w.k - 1 ∨ w.nc - (w.k - 1) ≤ i) →
      (wenoPipeline w).c_ilrj (cIndex w i l r j) = w.c_ilrj (cIndex w i l r j)) ∧
    (∀ i r m n : ℤ, (i, r, m, n) ∈ bBox w →
      (∀ t1 ∈ bBox w, ∀ t2 ∈ bBox w,
        bIndex w t1.1 t1.2.1 t1.2.2.1 t1.2.2.2 = bIndex w t2.1 t2.2.1 t2.2.2.1 t2.2.2.2 →
          t1 = t2) →
      (i < w.k - 1 ∨ w.nc - (w.k - 1) ≤ i ∨ n < m) →
      (wenoPipeline w).beta (bIndex w i r m n) = w.beta (bIndex w i r m n)) := by
  constructor
  · rintro i l r j hbox hinj hout
    have hstep : ∀ t ∈ coefQuads (weno_recon_polys w),
        cIndex (weno_recon_polys w) t.1 t.2.2.2 t.2.1 t.2.2.1 ≠ cIndex w i l r j := by
      rintro ⟨i2, r2, j2, n2⟩ ht heq
      obtain ⟨hi2, hr2, hj2, hn2⟩ := mem_coefQuads.mp ht
      simp only [recon_polys_k, recon_polys_nc, recon_polys_nxi] at hi2 hr2 hj2 hn2
      have ht1 : ((i2, n2, r2, j2) : ℤ × ℤ × ℤ × ℤ) ∈ cBox w := by
        unfold cBox
        simp only [Finset.mem_product, Finset.mem_Icc]
        omega
      have := hinj (i2, n2, r2, j2) ht1 (i, l, r, j) hbox heq
      simp only [Prod.mk.injEq] at this
      omega
    exact foldl_update_not_mem (coefQuads (weno_recon_polys w))
      (fun t => cIndex (weno_recon_polys w) t.1 t.2.2.2 t.2.1 t.2.2.1)
      (fun t => poly_eval ((weno_recon_polys w).c_irj_x
        (irjIndex (weno_recon_polys w) t.1 t.2.1 t.2.2.1))
        (xiPhys (weno_recon_polys w) t.1 t.2.2.2))
      w.c_ilrj (cIndex w i l r j) hstep
  · rintro i r m n hbox hinj hout
    have hstep : ∀ t ∈ smoothQuads (weno_recon_coefs (weno_recon_polys w)),
        bIndex (weno_recon_coefs (weno_recon_polys w)) t.1 t.2.1 t.2.2.1 t.2.2.2 ≠
          bIndex w i r m n := by
      rintro ⟨i2, r2, m2, n2⟩ ht heq
      obtain ⟨hi2, hr2, hm2, hn2⟩ := mem_smoothQuads.mp ht
      have hi2a : w.k - 1 ≤ i2 ∧ i2 < w.nc - (w.k - 1) := hi2
      have hr2a : 0 ≤ r2 ∧ r2 < w.k := hr2
      have hm2a : 0 ≤ m2 ∧ m2 < w.k := hm2
      have hn2a : m2 ≤ n2 ∧ n2 < w.k := hn2
      have ht1 : ((i2, r2, m2, n2) : ℤ × ℤ × ℤ × ℤ) ∈ bBox w := by
        unfold bBox
        simp only [Finset.mem_product, Finset.mem_Icc]
        omega
      have := hinj (i2, r2, m2, n2) ht1 (i, r, m, n) hbox heq
      simp only [Prod.mk.injEq] at this
      omega
    exact foldl_update_not_mem (smoothQuads (weno_recon_coefs (weno_recon_polys w)))
      (fun t => bIndex (weno_recon_coefs (weno_recon_polys w)) t.1 t.2.1 t.2.2.1 t.2.2.2)
      (fun t => smoothVal (weno_recon_coefs (weno_recon_polys w)) t.1 t.2.1 t.2.2.1 t.2.2.2)
      w.beta (bIndex w i r m n) hstep

/-- Test fixture for the frame and empty-range claims: `k = 2` but only
`nx = 3` boundary points (`nc = 2`), so the interior cell range
`[k-1, nc-(k-1)) = [1, 1)` is empty; contiguous strides for extents
`(2,1,2,2)` and `(2,2,2,2)`. -/
def testW3 : weno where
  k := 2
  nx := 3
  nc := 2
  nxi := 1
  x := fun jj => (jj : ℚ)
  xi := fun _ => 0
  c_irj_x := fun _ => ⟨0, fun _ => 0⟩
  c_ilrj := fun _ => 0
  beta := fun _ => 0
  csi := 4
  csl := 4
  csr := 2
  csj := 1
  bsi := 8
  bsr := 4
  bsm := 2
  bsn := 1

/-- Witness for claim C4 at `k = 2`, `nx = 3`, entry cell `i = 0`
(outside the processed range) for both tensors. -/
theorem claim4_witness :
    ((((0 : ℤ), (0 : ℤ), (0 : ℤ), (0 : ℤ)) ∈ cBox testW3 ∧
        (∀ t1 ∈ cBox testW3, ∀ t2 ∈ cBox testW3,
          cIndex testW3 t1.1 t1.2.1 t1.2.2.1 t1.2.2.2 =
              cIndex testW3 t2.1 t2.2.1 t2.2.2.1 t2.2.2.2 → t1 = t2) ∧
        ((0 : ℤ) < testW3.k - 1 ∨ testW3.nc - (testW3.k - 1) ≤ 0)) ∧
      (wenoPipeline testW3).c_ilrj (cIndex testW3 0 0 0 0) =
        testW3.c_ilrj (cIndex testW3 0 0 0 0)) ∧
    ((((0 : ℤ), (0 : ℤ), (0 : ℤ), (0 : ℤ)) ∈ bBox testW3 ∧
        (∀ t1 ∈ bBox testW3, ∀ t2 ∈ bBox testW3,
          bIndex testW3 t1.1 t1.2.1 t1.2.2.1 t1.2.2.2 =
              bIndex testW3 t2.1 t2.2.1 t2.2.2.1 t2.2.2.2 → t1 = t2) ∧
        ((0 : ℤ) < testW3.k - 1 ∨ testW3.nc - (testW3.k - 1) ≤ 0 ∨ (0 : ℤ) < 0)) ∧
      (wenoPipeline testW3).beta (bIndex testW3 0 0 0 0) =
        testW3.beta (bIndex testW3 0 0 0 0)) :=
  ⟨⟨⟨by decide, by decide, by decide⟩,
      (claim4_frame testW3).1 0 0 0 0 (by decide) (by decide) (by decide)⟩,
    ⟨⟨by decide, by decide, by decide⟩,
      (claim4_frame testW3).2 0 0 0 0 (by decide) (by decide) (by decide)⟩⟩

/-- Uniform rigid translation of the grid: every boundary moved by `t`. -/
def translateGrid (w : weno) (t : ℚ) : weno := { w with x := fun j => w.x j + t }

theorem xlocal_translate (w : weno) (t : ℚ) (i j : ℤ) :
    xlocal (translateGrid w t) i j = xlocal w i j := by
  unfold xlocal translateGrid xlocalGridIndex
  ring

theorem nodeVal_translate (w : weno) (t : ℚ) (i r n : ℤ) :
    nodeVal (translateGrid w t) i r n = nodeVal w i r n := by
  unfold nodeVal
  rw [xlocal_translate w t i (nodeWindowIndex (translateGrid w t) r n)]
  rfl

theorem prdN_translate (w : weno) (t : ℚ) (i r l m : ℤ) :
    prdN (translateGrid w t) i r l m = prdN w i r l m := by
  refine List.foldl_ext _ _ _ ?_
  intro acc nn _
  by_cases h : nn = l ∨ nn = m
  · simp [h]
  · simp [h, nodeVal_translate]

theorem sumM_translate (w : weno) (t : ℚ) (i r l : ℤ) :
    sumM (translateGrid w t) i r l = sumM w i r l := by
  refine List.foldl_ext _ _ _ ?_
  intro acc m _
  by_cases h : m = l
  · simp [h]
  · simp [h, prdN_translate]

theorem lagDenom_translate (w : weno) (t : ℚ) (i r l : ℤ) :
    lagDenom (translateGrid w t) i r l = lagDenom w i r l := by
  refine List.foldl_ext _ _ _ ?_
  intro acc m _
  by_cases h : m = l
  · simp [h]
  · simp [h, nodeVal_translate]

theorem reconPoly_translate (w : weno) (t : ℚ) (i r j : ℤ) :
    reconPoly (translateGrid w t) i r j = reconPoly w i r j := by
  refine List.foldl_ext _ _ _ ?_
  intro acc l _
  rw [sumM_translate, lagDenom_translate]

theorem recon_polys_translate (w : weno) (t : ℚ) :
    (weno_recon_polys (translateGrid w t)).c_irj_x = (weno_recon_polys w).c_irj_x := by
  refine List.foldl_ext _ _ _ ?_
  intro f tr _
  rw [show irjIndex (translateGrid w t) tr.1 tr.2.1 tr.2.2 =
      irjIndex w tr.1 tr.2.1 tr.2.2 from rfl,
    reconPoly_translate]

theorem xiPhys_translate (w : weno) (t : ℚ) (i n : ℤ) :
    xiPhys (translateGrid w t) i n = xiPhys w i n := by
  unfold xiPhys translateGrid
  ring

theorem recon_coefs_c_ilrj_congr (u v : weno)
    (hk : u.k = v.k) (hnc : u.nc = v.nc) (hnxi : u.nxi = v.nxi)
    (hstr : u.csi = v.csi ∧ u.csl = v.csl ∧ u.csr = v.csr ∧ u.csj = v.csj)
    (hbase : u.c_ilrj = v.c_ilrj) (hpoly : u.c_irj_x = v.c_irj_x) (hxi : u.xi = v.xi)
    (hdx : ∀ i : ℤ, u.x (i + 1) - u.x i = v.x (i + 1) - v.x i) :
    (weno_recon_coefs u).c_ilrj = (weno_recon_coefs v).c_ilrj := by
  have hq : coefQuads u = coefQuads v := by
    unfold coefQuads
    rw [hk, hnc, hnxi]
  show (coefQuads u).foldl _ u.c_ilrj = (coefQuads v).foldl _ v.c_ilrj
  rw [hq, hbase]
  refine List.foldl_ext _ _ _ ?_
  intro f q _
  have h1 : cIndex u q.1 q.2.2.2 q.2.1 q.2.2.1 = cIndex v q.1 q.2.2.2 q.2.1 q.2.2.1 := by
    unfold cIndex
    rw [hstr.1, hstr.2.1, hstr.2.2.1, hstr.2.2.2]
  have h2 : irjIndex u q.1 q.2.1 q.2.2.1 = irjIndex v q.1 q.2.1 q.2.2.1 := by
    unfold irjIndex
    rw [hk]
  have h3 : xiPhys u q.1 q.2.2.2 = xiPhys v q.1 q.2.2.2 := by
    unfold xiPhys
    rw [hxi, hdx q.1]
  rw [h1, h2, h3, hpoly]

/-- Claim C5: for every real translation `t`, every order `k`, every grid
and every evaluation-point sequence, running the builder and the
coefficient evaluator on the grid translated by `t` produces the same
reconstruction-coefficient buffer as on the original grid: the
computation depends on the grid only through coordinate differences.
(Stated for all grids; in particular for every strictly increasing one.) -/
theorem claim5_translation_invariance (w : weno) (t : ℚ) :
    (weno_recon_coefs (weno_recon_polys (translateGrid w t))).c_ilrj =
      (weno_recon_coefs (weno_recon_polys w)).c_ilrj := by
  refine recon_coefs_c_ilrj_congr _ _ rfl rfl rfl ⟨rfl, rfl, rfl, rfl⟩ rfl
    (recon_polys_translate w t) rfl ?_
  intro i
  show (w.x (i + 1) + t) - (w.x i + t) = w.x (i + 1) - w.x i
  ring

/-! The wrapper claims: validation, empty cell range, index bounds. -/

theorem reconTriples_nil (w : weno) (h : w.nc - (w.k - 1) ≤ w.k - 1) :
    reconTriples w = [] := by
  unfold reconTriples
  rw [intRange_eq_nil h]
  rfl

theorem coefQuads_nil (w : weno) (h : w.nc - (w.k - 1) ≤ w.k - 1) :
    coefQuads w = [] := by
  unfold coefQuads
  rw [intRange_eq_nil h]
  rfl

theorem smoothQuads_nil (w : weno) (h : w.nc - (w.k - 1) ≤ w.k - 1) :
    smoothQuads w = [] := by
  unfold smoothQuads
  rw [intRange_eq_nil h]
  rfl

theorem pipeline_empty (w : weno) (h : w.nc - (w.k - 1) ≤ w.k - 1) :
    (wenoPipeline w).c_ilrj = w.c_ilrj ∧ (wenoPipeline w).beta = w.beta := by
  have h2 : coefQuads (weno_recon_polys w) = [] := coefQuads_nil _ h
  have h3 : smoothQuads (weno_recon_coefs (weno_recon_polys w)) = [] := smoothQuads_nil _ h
  constructor
  · show (coefQuads (weno_recon_polys w)).foldl _ w.c_ilrj = w.c_ilrj
    rw [h2]
    rfl
  · show (smoothQuads (weno_recon_coefs (weno_recon_polys w))).foldl _ w.beta = w.beta
    rw [h3]
    rfl

/-- Claim C8 (amended): whenever any of the four arrays fails its
dimensionality or element-type check — `x` or `xi` not one-dimensional
double, `c` or `beta` not four-dimensional double —
`py_nonuniform_coeffs` surfaces a rejected-request error before the core
computation runs, and neither output buffer is written.  (Size
consistency between `k`, the grid length and the output-tensor extents is
NOT validated: see the counterexample.) -/
theorem claim8_validation (k : ℤ) (xi_py x_py c_py beta_py : NDArray)
    (hbad : ¬(x_py.nd = 1 ∧ x_py.typ = PyArray_DOUBLE) ∨
      ¬(xi_py.nd = 1 ∧ xi_py.typ = PyArray_DOUBLE) ∨
      ¬(c_py.nd = 4 ∧ c_py.typ = PyArray_DOUBLE) ∨
      ¬(beta_py.nd = 4 ∧ beta_py.typ = PyArray_DOUBLE)) :
    (py_nonuniform_coeffs k xi_py x_py c_py beta_py).1.isSome = true ∧
    (py_nonuniform_coeffs k xi_py x_py c_py beta_py).2.1 = c_py.data ∧
    (py_nonuniform_coeffs k xi_py x_py c_py beta_py).2.2 = beta_py.data := by
  unfold py_nonuniform_coeffs
  by_cases h1 : x_py.nd = 1 ∧ x_py.typ = PyArray_DOUBLE
  · by_cases h2 : xi_py.nd = 1 ∧ xi_py.typ = PyArray_DOUBLE
    · by_cases h3 : c_py.nd = 4 ∧ c_py.typ = PyArray_DOUBLE
      · by_cases h4 : beta_py.nd = 4 ∧ beta_py.typ = PyArray_DOUBLE
        · tauto
        · simp [h1, h2, h3, h4]
      · simp [h1, h2, h3]
    · simp [h1, h2]
  · simp [h1]

/-- A 2-dimensional double array: invalid as the grid argument `x`. -/
def bad2dX : NDArray := ⟨2, PyArray_DOUBLE, fun _ => 3, fun _ => 1, fun _ => 0⟩

/-- A well-formed 1-dimensional double array with one element, value 0. -/
def okXi1 : NDArray := ⟨1, PyArray_DOUBLE, fun _ => 1, fun _ => 1, fun _ => 0⟩

/-- A 1-dimensional double array holding the grid `[0,1,2,3,4]`. -/
def okX5 : NDArray := ⟨1, PyArray_DOUBLE, fun _ => 5, fun _ => 1, fun jj => (jj : ℚ)⟩

/-- A 1-dimensional double array holding the tiny grid `[0,1,2]`. -/
def okX3 : NDArray := ⟨1, PyArray_DOUBLE, fun _ => 3, fun _ => 1, fun jj => (jj : ℚ)⟩

/-- A 4-dimensional double array whose every extent is 1: its sizes are
inconsistent with `k = 2` and a 5-point grid, yet it passes every check
the wrapper performs. -/
def misC1111 : NDArray := ⟨4, PyArray_DOUBLE, fun _ => 1, fun _ => 1, fun _ => 0⟩

/-- A second mismatched 4-dimensional double array for the `beta` slot. -/
def misB1111 : NDArray := ⟨4, PyArray_DOUBLE, fun _ => 1, fun _ => 1, fun _ => 0⟩

/-- Claim C8 counterexample: with `k = 2`, a 5-point grid and output
tensors whose extents `(1,1,1,1)` are inconsistent with `k`, the grid and
the required extents `(4,1,2,2)`/`(4,2,2,2)`, `py_nonuniform_coeffs`
reports NO error: the size-mismatch class of the claimed validation
taxonomy is not rejected, and the core computation runs. -/
theorem claim8_counterexample :
    (py_nonuniform_coeffs 2 okXi1 okX5 misC1111 misB1111).1 = none := by decide

/-- Witness for claim C8 (amended) with a 2-dimensional `x` argument. -/
theorem claim8_witness :
    (¬(bad2dX.nd = 1 ∧ bad2dX.typ = PyArray_DOUBLE) ∨
      ¬(okXi1.nd = 1 ∧ okXi1.typ = PyArray_DOUBLE) ∨
      ¬(misC1111.nd = 4 ∧ misC1111.typ = PyArray_DOUBLE) ∨
      ¬(misB1111.nd = 4 ∧ misB1111.typ = PyArray_DOUBLE)) ∧
    ((py_nonuniform_coeffs 2 okXi1 bad2dX misC1111 misB1111).1.isSome = true ∧
      (py_nonuniform_coeffs 2 okXi1 bad2dX misC1111 misB1111).2.1 = misC1111.data ∧
      (py_nonuniform_coeffs 2 okXi1 bad2dX misC1111 misB1111).2.2 = misB1111.data) :=
  ⟨by decide, claim8_validation 2 okXi1 bad2dX misC1111 misB1111 (by decide)⟩

/-- Claim C9: when the arrays pass the type checks but the grid has fewer
than `2k` boundary points — so that `nc - (k-1) ≤ k-1` — the call still
succeeds with no error (the binding returns None), the cell loops of all
three core passes are empty, and neither output buffer is written: the
result holds exactly the pre-call buffer contents. -/
theorem claim9_empty_range (k : ℤ) (xi_py x_py c_py beta_py : NDArray)
    (hx : x_py.nd = 1 ∧ x_py.typ = PyArray_DOUBLE)
    (hxi : xi_py.nd = 1 ∧ xi_py.typ = PyArray_DOUBLE)
    (hc : c_py.nd = 4 ∧ c_py.typ = PyArray_DOUBLE)
    (hb : beta_py.nd = 4 ∧ beta_py.typ = PyArray_DOUBLE)
    (hsmall : (x_py.dims 0 - 1) - (k - 1) ≤ k - 1) :
    py_nonuniform_coeffs k xi_py x_py c_py beta_py = (none, c_py.data, beta_py.data) := by
  unfold py_nonuniform_coeffs
  rw [if_neg (not_not_intro hx), if_neg (not_not_intro hxi), if_neg (not_not_intro hc),
    if_neg (not_not_intro hb)]
  obtain ⟨e1, e2⟩ := pipeline_empty (wrapperWeno k xi_py x_py c_py beta_py) hsmall
  show ((none : Option String), (wenoPipeline (wrapperWeno k xi_py x_py c_py beta_py)).c_ilrj,
      (wenoPipeline (wrapperWeno k xi_py x_py c_py beta_py)).beta) =
    (none, c_py.data, beta_py.data)
  rw [e1, e2]
  rfl

/-- Witness for claim C9: `k = 2` with a 3-point grid (`nc - 1 = 1 ≤ 1`). -/
theorem claim9_witness :
    ((okX3.nd = 1 ∧ okX3.typ = PyArray_DOUBLE) ∧
      (okXi1.nd = 1 ∧ okXi1.typ = PyArray_DOUBLE) ∧
      (misC1111.nd = 4 ∧ misC1111.typ = PyArray_DOUBLE) ∧
      (misB1111.nd = 4 ∧ misB1111.typ = PyArray_DOUBLE) ∧
      (okX3.dims 0 - 1) - ((2 : ℤ) - 1) ≤ (2 : ℤ) - 1) ∧
    py_nonuniform_coeffs 2 okXi1 okX3 misC1111 misB1111 =
      (none, misC1111.data, misB1111.data) :=
  ⟨⟨by decide, by decide, by decide, by decide, by decide⟩,
    claim9_empty_range 2 okXi1 okX3 misC1111 misB1111 (by decide) (by decide) (by decide)
      (by decide) (by decide)⟩

/-- Claim C10: under the precondition `nx ≥ 2k` with `nc = nx - 1`, every
array index formed by `weno_recon_polys` stays in bounds: for every
processed cell `i ∈ [k-1, nc-(k-1))` and window slot `j ∈ [0, 2k)` the
grid index `i - (k-1) + j` lies in `[0, nx)`, and for every shift
`r ∈ [0, k)` and node index `n ∈ [0, k]` the window index `(k-1) - r + n`
lies in `[0, 2k)`: every read of `x` and of the length-`2k` window
`xlocal` is inside its array. -/
theorem claim10_index_bounds (w : weno) (i j r n : ℤ)
    (_hnx : 2 * w.k ≤ w.nx) (hnc : w.nc = w.nx - 1)
    (hi1 : w.k - 1 ≤ i) (hi2 : i < w.nc - (w.k - 1))
    (hj1 : 0 ≤ j) (hj2 : j < 2 * w.k)
    (hr1 : 0 ≤ r) (hr2 : r < w.k) (hn1 : 0 ≤ n) (hn2 : n ≤ w.k) :
    (0 ≤ xlocalGridIndex w i j ∧ xlocalGridIndex w i j < w.nx) ∧
      (0 ≤ nodeWindowIndex w r n ∧ nodeWindowIndex w r n < 2 * w.k) := by
  unfold xlocalGridIndex nodeWindowIndex
  omega

/-- Witness for claim C10 at `k = 2`, grid `[0,1,2,3,4]`. -/
theorem claim10_witness :
    (2 * testW5.k ≤ testW5.nx ∧ testW5.nc = testW5.nx - 1 ∧
      testW5.k - 1 ≤ 1 ∧ (1 : ℤ) < testW5.nc - (testW5.k - 1) ∧
      (0 : ℤ) ≤ 0 ∧ (0 : ℤ) < 2 * testW5.k ∧
      (0 : ℤ) ≤ 0 ∧ (0 : ℤ) < testW5.k ∧ (0 : ℤ) ≤ 0 ∧ (0 : ℤ) ≤ testW5.k) ∧
    ((0 ≤ xlocalGridIndex testW5 1 0 ∧ xlocalGridIndex testW5 1 0 < testW5.nx) ∧
      (0 ≤ nodeWindowIndex testW5 0 0 ∧ nodeWindowIndex testW5 0 0 < 2 * testW5.k)) :=
  ⟨⟨by decide, by decide, by decide, by decide, by decide, by decide, by decide, by decide,
      by decide, by decide⟩,
    claim10_index_bounds testW5 1 0 0 0 (by decide) (by decide) (by decide) (by decide)
      (by decide) (by decide) (by decide) (by decide) (by decide) (by decide)⟩
